import Mathlib

/-!
Shallow embedding of `partycluster.py` (event deduplication and the
space-time distance metric of the party-clustering script), together with
theorems settling the specification claims about it.

Modelling conventions:
* a Python `datetime` instant is an integer number of seconds (`ℤ`);
  `(a - b).total_seconds()` becomes integer subtraction;
* latitude/longitude are exact rationals (`ℚ`), read as decimal degrees;
* Python floats are modelled as real numbers (`ℝ`);
* `float('inf')` is modelled as `⊤ : EReal`;
* the Python dict `current_events` is modelled as a total function
  `String → Option Event` (absent key ↦ `none`).
-/

/-- The `Event` class of `partycluster.py`: one observed check-in. -/
structure Event where
  name : String
  uri : String
  datetime : ℤ
  latitude : ℚ
  longitude : ℚ
deriving DecidableEq, Repr

/-- The function `temporalDistance(a, b)`: `abs((a.datetime - b.datetime).total_seconds())`. -/
def temporalDistance (a b : Event) : ℤ :=
  |a.datetime - b.datetime|

/-- Degrees to radians, the conversion a geodesic model applies to the
decimal-degree coordinates. -/
noncomputable def toRadians (d : ℚ) : ℝ :=
  (d : ℝ) * Real.pi / 180

/-- Mean earth radius in meters used by the great-circle model. -/
noncomputable def earthRadius : ℝ := 6371000

/-- Modelled from the spec: `spatialDistance(a, b)` delegates the geodesic
computation to the external `geopy` library (`distance.distance(...).m`),
which is not code under `src/`; the spec describes it as the great-circle
surface distance in meters between the two coordinate pairs.  We model it
by the haversine great-circle formula on a sphere of mean earth radius. -/
noncomputable def spatialDistance (a b : Event) : ℝ :=
  let phi1 := toRadians a.latitude
  let phi2 := toRadians b.latitude
  let dphi := toRadians b.latitude - toRadians a.latitude
  let dlam := toRadians b.longitude - toRadians a.longitude
  let h := Real.sin (dphi / 2) ^ 2 +
    Real.cos phi1 * Real.cos phi2 * Real.sin (dlam / 2) ^ 2
  2 * earthRadius * Real.arcsin (Real.sqrt h)

/-- Python's `math.sqrt`: raises `ValueError` (here `none`) on a negative
argument, otherwise returns the nonnegative square root. -/
noncomputable def pysqrt (x : ℝ) : Option ℝ :=
  if x < 0 then none else some (Real.sqrt x)

/-- The function `spacelikeInterval(a, b)`: `sqrt(delta_r**2 - (c * delta_t**2))` with
`c = 1`, returning `float('inf')` when `sqrt` raises `ValueError`. -/
noncomputable def spacelikeInterval (a b : Event) : EReal :=
  let delta_r := spatialDistance a b
  let delta_t := (temporalDistance a b : ℝ)
  let c : ℝ := 1
  match pysqrt (delta_r ^ 2 - c * delta_t ^ 2) with
  | some v => (v : EReal)
  | none => ⊤

/-- The dedup key of `updateEvents`: `new_event.name + ' <' + new_event.uri + '>'`. -/
def dedupKey (e : Event) : String :=
  e.name ++ " <" ++ e.uri ++ ">"

/-- The event store: the Python dict `current_events`, as a total function. -/
def Store : Type := String → Option Event

/-- The empty store `{}` created at the start of a run. -/
def emptyStore : Store := fun _ => none

/-- Dict assignment `current_events[key] = new_event`. -/
def insertStore (s : Store) (k : String) (e : Event) : Store :=
  fun k' => if k' = k then some e else s k'

/-- The body of the `for new_event in new_events` loop of `updateEvents`:
look the dedup key up; on `KeyError` insert, otherwise replace only when
`new_event.datetime > current_event.datetime`. -/
def updateEvent (current_events : Store) (new_event : Event) : Store :=
  match current_events (dedupKey new_event) with
  | some current_event =>
      if current_event.datetime < new_event.datetime then
        insertStore current_events (dedupKey new_event) new_event
      else
        current_events
  | none => insertStore current_events (dedupKey new_event) new_event

/-- The function `updateEvents(current_events, new_events)`: fold the per-event update
over the batch, in order. -/
def updateEvents (current_events : Store) (new_events : List Event) : Store :=
  new_events.foldl updateEvent current_events

/-- The final store of a run: start from the empty dict and ingest the
feeds' batches in order (`current_events = updateEvents(current_events, events)`
once per feed). -/
def finalStore (batches : List (List Event)) : Store :=
  batches.foldl updateEvents emptyStore

/-- Stable insertion used to model Python's stable ascending
`cluster.sort(key=lambda e: e.datetime)`. -/
def insertByTime (e : Event) : List Event → List Event
  | [] => [e]
  | x :: xs => if x.datetime ≤ e.datetime then x :: insertByTime e xs else e :: x :: xs

/-- Python's stable sort of a cluster by `datetime`, ascending. -/
def sortByTime (l : List Event) : List Event :=
  l.foldr insertByTime []

/-- The observable content of the announcement printed by `partyPrint`
(the participant names in print order and the two timestamps printed as
the time span); place names and the spatial extent are reporting-time
enrichment via external collaborators and carry no claim-relevant data. -/
structure Announcement where
  names : List String
  spanStart : Option ℤ
  spanEnd : Option ℤ
deriving DecidableEq, Repr

/-- The function `partyPrint(cluster, threshold)`: sorts the cluster by timestamp
ascending, prints the member names in that order, and prints the time
span as `timestamps[0]` to `timestamps[1]`. -/
def partyPrint (cluster : List Event) : Announcement :=
  let sorted := sortByTime cluster
  let timestamps := sorted.map (fun e => e.datetime)
  { names := sorted.map (fun e => e.name)
    spanStart := timestamps[0]?
    spanEnd := timestamps[1]? }

/-- The `__main__` filter: `for cluster in clusters: if len(cluster) > 2:
partyPrint(cluster, threshold)` — the clusters handed to reporting. -/
def reportedClusters (clusters : List (List Event)) : List (List Event) :=
  clusters.filter (fun c => 2 < c.length)

/-- Pointwise view of one `updateEvent` step at a fixed key `k`. -/
def applyAt (k : String) (acc : Option Event) (e : Event) : Option Event :=
  if dedupKey e = k then
    match acc with
    | some c => if c.datetime < e.datetime then some e else some c
    | none => some e
  else acc

/-- Returns `true` iff the character list contains the separator `" <"` as a
contiguous substring. -/
def hasSep : List Char → Bool
  | c1 :: c2 :: rest => if c1 = ' ' ∧ c2 = '<' then true else hasSep (c2 :: rest)
  | _ => false

/-! ## Store lemmas -/

/-- One `updateEvent` step, observed at a fixed key `k`, acts as `applyAt k`. -/
theorem updateEvent_apply (s : Store) (e : Event) (k : String) :
    updateEvent s e k = applyAt k (s k) e := by
  by_cases hk : dedupKey e = k
  · subst hk
    cases hs : s (dedupKey e) with
    | none => simp [updateEvent, applyAt, insertStore, hs]
    | some c =>
        by_cases hlt : c.datetime < e.datetime <;>
          simp [updateEvent, applyAt, insertStore, hs, hlt]
  · have hk' : ¬ k = dedupKey e := fun h => hk h.symm
    cases hs : s (dedupKey e) with
    | none => simp [updateEvent, applyAt, insertStore, hs, hk, hk']
    | some c =>
        by_cases hlt : c.datetime < e.datetime <;>
          simp [updateEvent, applyAt, insertStore, hs, hk, hk', hlt]

/-- A whole `updateEvents` call, observed at a fixed key `k`, is a fold of
`applyAt k` over the batch. -/
theorem updateEvents_apply (s : Store) (l : List Event) (k : String) :
    updateEvents s l k = l.foldl (applyAt k) (s k) := by
  induction l generalizing s with
  | nil => rfl
  | cons e t ih =>
      show updateEvents (updateEvent s e) t k = _
      rw [ih, updateEvent_apply]
      rfl

theorem applyAt_ts_le (k : String) (acc : Option Event) (e : Event) (c : Event)
    (h : acc = some c) :
    ∃ c', applyAt k acc e = some c' ∧ c.datetime ≤ c'.datetime := by
  subst h
  unfold applyAt
  by_cases hk : dedupKey e = k
  · simp only [hk, if_pos rfl]
    by_cases hlt : c.datetime < e.datetime
    · exact ⟨e, by simp [hlt], le_of_lt hlt⟩
    · exact ⟨c, by simp [hlt], le_refl _⟩
  · exact ⟨c, by simp [hk], le_refl _⟩

theorem foldl_applyAt_mono (k : String) (l : List Event) (acc : Option Event)
    (c : Event) (h : acc = some c) :
    ∃ v, l.foldl (applyAt k) acc = some v ∧ c.datetime ≤ v.datetime := by
  induction l generalizing acc c with
  | nil => exact ⟨c, h, le_refl _⟩
  | cons e t ih =>
      obtain ⟨c', hc', hle⟩ := applyAt_ts_le k acc e c h
      obtain ⟨v, hv, hle'⟩ := ih (applyAt k acc e) c' hc'
      exact ⟨v, hv, le_trans hle hle'⟩

theorem foldl_applyAt_mem (k : String) (l : List Event) (acc : Option Event)
    (e : Event) (he : e ∈ l) (hk : dedupKey e = k) :
    ∃ v, l.foldl (applyAt k) acc = some v ∧ e.datetime ≤ v.datetime := by
  induction l generalizing acc with
  | nil => cases he
  | cons x t ih =>
      rcases List.mem_cons.1 he with hx | ht
      · subst hx
        have hstep : ∃ w, applyAt k acc e = some w ∧ e.datetime ≤ w.datetime := by
          unfold applyAt
          rw [if_pos hk]
          cases acc with
          | none => exact ⟨e, rfl, le_refl _⟩
          | some c =>
              by_cases hlt : c.datetime < e.datetime
              · exact ⟨e, by simp [hlt], le_refl _⟩
              · exact ⟨c, by simp [hlt], le_of_not_lt hlt⟩
        obtain ⟨w, hw, hle⟩ := hstep
        obtain ⟨v, hv, hle'⟩ := foldl_applyAt_mono k t (applyAt k acc e) w hw
        exact ⟨v, hv, le_trans hle hle'⟩
      · exact ih (applyAt k acc x) ht

/-- The function `updateEvents` distributes over batch concatenation. -/
theorem updateEvents_append (s : Store) (A B : List Event) :
    updateEvents s (A ++ B) = updateEvents (updateEvents s A) B :=
  List.foldl_append updateEvent s A B

/-- Ingesting the batches one after another equals ingesting the
concatenated batch. -/
theorem finalStore_flatten (batches : List (List Event)) :
    finalStore batches = updateEvents emptyStore batches.flatten := by
  unfold finalStore
  generalize emptyStore = s
  induction batches generalizing s with
  | nil => rfl
  | cons b bs ih =>
      rw [List.foldl_cons, List.flatten_cons, updateEvents_append]
      exact ih (updateEvents s b)

/-- Two incoming events whose timestamps differ whenever both hit the key
`k` can be applied in either order. -/
theorem applyAt_comm (k : String) (x y : Event)
    (hxy : dedupKey x = k → dedupKey y = k → x.datetime ≠ y.datetime)
    (acc : Option Event) :
    applyAt k (applyAt k acc x) y = applyAt k (applyAt k acc y) x := by
  by_cases hx : dedupKey x = k
  · by_cases hy : dedupKey y = k
    · have hne := hxy hx hy
      cases acc with
      | none =>
          rcases lt_trichotomy x.datetime y.datetime with h | h | h
          · simp [applyAt, hx, hy, h, not_lt_of_lt h]
          · exact absurd h hne
          · simp [applyAt, hx, hy, h, not_lt_of_lt h]
      | some c =>
          rcases lt_trichotomy x.datetime y.datetime with h | h | h
          · by_cases hcx : c.datetime < x.datetime
            · simp [applyAt, hx, hy, hcx, h, lt_trans hcx h, not_lt_of_lt h]
            · by_cases hcy : c.datetime < y.datetime
              · simp [applyAt, hx, hy, hcx, hcy, not_lt_of_lt h]
              · simp [applyAt, hx, hy, hcx, hcy]
          · exact absurd h hne
          · by_cases hcy : c.datetime < y.datetime
            · simp [applyAt, hx, hy, hcy, h, lt_trans hcy h, not_lt_of_lt h]
            · by_cases hcx : c.datetime < x.datetime
              · simp [applyAt, hx, hy, hcx, hcy, not_lt_of_lt h]
              · simp [applyAt, hx, hy, hcx, hcy]
    · simp [applyAt, hy]
  · simp [applyAt, hx]

/-- A single commuting event moves across a whole fold of `applyAt k`. -/
theorem foldl_applyAt_move (k : String) (B : List Event) (x : Event)
    (h : ∀ y ∈ B, dedupKey x = k → dedupKey y = k → x.datetime ≠ y.datetime)
    (acc : Option Event) :
    B.foldl (applyAt k) (applyAt k acc x) = applyAt k (B.foldl (applyAt k) acc) x := by
  induction B generalizing acc with
  | nil => rfl
  | cons y t ih =>
      have hxy := h y (List.mem_cons_self y t)
      have hrest : ∀ z ∈ t, dedupKey x = k → dedupKey z = k → x.datetime ≠ z.datetime :=
        fun z hz => h z (List.mem_cons_of_mem y hz)
      calc (y :: t).foldl (applyAt k) (applyAt k acc x)
          = t.foldl (applyAt k) (applyAt k (applyAt k acc x) y) := rfl
        _ = t.foldl (applyAt k) (applyAt k (applyAt k acc y) x) := by
              rw [applyAt_comm k x y hxy acc]
        _ = applyAt k (t.foldl (applyAt k) (applyAt k acc y)) x := ih hrest _

/-- Two batches whose cross pairs never tie on a common key can be folded
in either order. -/
theorem foldl_applyAt_swap (k : String) (A B : List Event)
    (h : ∀ x ∈ A, ∀ y ∈ B, dedupKey x = k → dedupKey y = k → x.datetime ≠ y.datetime)
    (acc : Option Event) :
    B.foldl (applyAt k) (A.foldl (applyAt k) acc) =
      A.foldl (applyAt k) (B.foldl (applyAt k) acc) := by
  induction A generalizing acc with
  | nil => rfl
  | cons x t ih =>
      have hx : ∀ y ∈ B, dedupKey x = k → dedupKey y = k → x.datetime ≠ y.datetime :=
        h x (List.mem_cons_self x t)
      have hrest : ∀ z ∈ t, ∀ y ∈ B, dedupKey z = k → dedupKey y = k → z.datetime ≠ y.datetime :=
        fun z hz => h z (List.mem_cons_of_mem x hz)
      calc B.foldl (applyAt k) ((x :: t).foldl (applyAt k) acc)
          = B.foldl (applyAt k) (t.foldl (applyAt k) (applyAt k acc x)) := rfl
        _ = t.foldl (applyAt k) (B.foldl (applyAt k) (applyAt k acc x)) := ih hrest _
        _ = t.foldl (applyAt k) (applyAt k (B.foldl (applyAt k) acc) x) := by
              rw [foldl_applyAt_move k B x hx acc]
        _ = (x :: t).foldl (applyAt k) (B.foldl (applyAt k) acc) := rfl

/-! ## Concrete events used by witnesses and counterexamples -/

/-- A stored author event (timestamp 10). -/
def storedOld : Event := ⟨"Carol", "http://c", 10, 0, 0⟩

/-- A strictly newer event for the same author (timestamp 20). -/
def incomingNew : Event := ⟨"Carol", "http://c", 20, 3, 4⟩

/-- A one-entry store holding `storedOld`. -/
def demoStore : Store := insertStore emptyStore (dedupKey storedOld) storedOld

/-- First of two same-key events with equal timestamps, differing in latitude. -/
def tieA : Event := ⟨"t", "u", 0, 1, 0⟩

/-- Second of two same-key events with equal timestamps, differing in latitude. -/
def tieB : Event := ⟨"t", "u", 0, 2, 0⟩

/-- A same-key event with a distinct (newer) timestamp. -/
def newerT : Event := ⟨"t", "u", 5, 1, 0⟩

/-! ## C2: per-event dedup rule of updateEvents -/

/-- C2: `updateEvents` inserts an incoming event when its dedup key is
absent; when the key is present it replaces the stored event iff the
incoming timestamp is strictly greater, and with an equal-or-older
timestamp the store is left unchanged. -/
theorem updateEvents_dedup_rule (s : Store) (e : Event) :
    (s (dedupKey e) = none → updateEvents s [e] (dedupKey e) = some e) ∧
    (∀ cur, s (dedupKey e) = some cur →
      updateEvents s [e] (dedupKey e) =
        (if cur.datetime < e.datetime then some e else some cur) ∧
      (¬ cur.datetime < e.datetime → updateEvents s [e] = s)) := by
  have h1 : updateEvents s [e] = updateEvent s e := rfl
  refine ⟨fun habs => ?_, fun cur hcur => ⟨?_, fun hnot => ?_⟩⟩
  · rw [h1, updateEvent_apply, habs]
    simp [applyAt]
  · rw [h1, updateEvent_apply, hcur]
    by_cases hlt : cur.datetime < e.datetime <;> simp [applyAt, hlt]
  · rw [h1]
    unfold updateEvent
    rw [hcur]
    simp [hnot]

/-- C2 witness: in a store holding `storedOld` (timestamp 10), the
strictly newer `incomingNew` (timestamp 20) replaces it. -/
theorem updateEvents_dedup_rule_witness :
    updateEvents demoStore [incomingNew] (dedupKey incomingNew) = some incomingNew := by
  have h := ((updateEvents_dedup_rule demoStore incomingNew).2 storedOld (by decide)).1
  rw [h]
  decide

/-! ## C3: order of feed ingestion -/

/-- C3 counterexample: two batches carrying equal-timestamp events for the
same dedup key but different coordinates produce different final stores
depending on ingestion order (the first-ingested event wins the tie). -/
theorem updateEvents_not_commutative :
    updateEvents (updateEvents emptyStore [tieA]) [tieB] "t <u>" ≠
      updateEvents (updateEvents emptyStore [tieB]) [tieA] "t <u>" := by
  decide

/-- C3 (amended): ingestion order of two batches does not matter provided
no event of one batch ties on timestamp with a same-key event of the
other batch. -/
theorem updateEvents_comm (s : Store) (A B : List Event)
    (H : ∀ e1 ∈ A, ∀ e2 ∈ B, dedupKey e1 = dedupKey e2 → e1.datetime ≠ e2.datetime) :
    updateEvents (updateEvents s A) B = updateEvents (updateEvents s B) A := by
  funext k
  rw [updateEvents_apply, updateEvents_apply, updateEvents_apply, updateEvents_apply]
  exact foldl_applyAt_swap k A B
    (fun x hx y hy h1 h2 => H x hx y hy (h1.trans h2.symm)) (s k)

/-- C3 witness: with distinct timestamps on the shared key, the two
ingestion orders agree. -/
theorem updateEvents_comm_witness :
    updateEvents (updateEvents emptyStore [tieA]) [newerT] =
      updateEvents (updateEvents emptyStore [newerT]) [tieA] :=
  updateEvents_comm emptyStore [tieA] [newerT] (by decide)

/-! ## C6: the stored timestamp dominates every submission -/

/-- C6: for any sequence of ingested batches and any key present in the
final store, the stored event's timestamp is at least the timestamp of
every event ever submitted for that key, whatever the arrival order. -/
theorem finalStore_ts_dominates (batches : List (List Event)) (k : String)
    (v : Event) (hv : finalStore batches k = some v)
    (e : Event) (he : e ∈ batches.flatten) (hk : dedupKey e = k) :
    e.datetime ≤ v.datetime := by
  rw [finalStore_flatten, updateEvents_apply] at hv
  obtain ⟨v', hv', hle⟩ := foldl_applyAt_mem k batches.flatten (emptyStore k) e he hk
  rw [hv] at hv'
  cases hv'
  exact hle

/-- C6 witness: a single ingested batch containing `storedOld`. -/
theorem finalStore_ts_dominates_witness : storedOld.datetime ≤ storedOld.datetime :=
  finalStore_ts_dominates [[storedOld]] (dedupKey storedOld) storedOld (by decide)
    storedOld (by decide) rfl

/-! ## C7: idempotence of updateEvents -/

/-- C7: applying the same batch twice yields the same store as applying it
once. -/
theorem updateEvents_idem (s : Store) (l : List Event) :
    updateEvents (updateEvents s l) l = updateEvents s l := by
  funext k
  rw [updateEvents_apply (updateEvents s l) l k, updateEvents_apply s l k]
  generalize hacc : l.foldl (applyAt k) (s k) = acc
  have hstable : ∀ e ∈ l, dedupKey e = k → ∃ c, acc = some c ∧ e.datetime ≤ c.datetime := by
    intro e he hk
    obtain ⟨v, hv, hle⟩ := foldl_applyAt_mem k l (s k) e he hk
    exact ⟨v, by rw [← hacc, hv], hle⟩
  clear hacc
  induction l generalizing acc with
  | nil => rfl
  | cons e t ih =>
      have hstep : applyAt k acc e = acc := by
        by_cases hk : dedupKey e = k
        · obtain ⟨c, hc, hle⟩ := hstable e (List.mem_cons_self e t) hk
          subst hc
          simp [applyAt, hk, not_lt_of_le hle]
        · simp [applyAt, hk]
      show t.foldl (applyAt k) (applyAt k acc e) = acc
      rw [hstep]
      exact ih acc (fun z hz hk => hstable z (List.mem_cons_of_mem e hz) hk)

/-! ## C9: only clusters with more than two members are reported -/

/-- C9: a cluster of the level-cut partition is handed to reporting iff it
has more than 2 members; size-1 and size-2 clusters are discarded. -/
theorem mem_reportedClusters (clusters : List (List Event)) (c : List Event) :
    c ∈ reportedClusters clusters ↔ c ∈ clusters ∧ 2 < c.length := by
  simp [reportedClusters, List.mem_filter]

/-! ## Distance-metric lemmas -/

/-- Rewriting `spacelikeInterval` as an if-then-else on the sign of the radicand. -/
theorem spacelikeInterval_eq (a b : Event) :
    spacelikeInterval a b =
      if spatialDistance a b ^ 2 - 1 * (temporalDistance a b : ℝ) ^ 2 < 0 then (⊤ : EReal)
      else ((Real.sqrt (spatialDistance a b ^ 2 - 1 * (temporalDistance a b : ℝ) ^ 2) : ℝ) : EReal) := by
  simp only [spacelikeInterval, pysqrt]
  by_cases h : spatialDistance a b ^ 2 - 1 * (temporalDistance a b : ℝ) ^ 2 < 0
  · rw [if_pos h, if_pos h]
  · rw [if_neg h, if_neg h]

/-- The haversine distance is nonnegative. -/
theorem spatialDistance_nonneg (a b : Event) : 0 ≤ spatialDistance a b := by
  unfold spatialDistance
  have h1 : (0:ℝ) ≤ Real.arcsin (Real.sqrt (Real.sin ((toRadians b.latitude - toRadians a.latitude) / 2) ^ 2 +
      Real.cos (toRadians a.latitude) * Real.cos (toRadians b.latitude) *
        Real.sin ((toRadians b.longitude - toRadians a.longitude) / 2) ^ 2)) :=
    Real.arcsin_nonneg.2 (Real.sqrt_nonneg _)
  have h2 : (0:ℝ) ≤ 2 * earthRadius := by
    unfold earthRadius
    norm_num
  exact mul_nonneg h2 h1

/-- The temporal distance is nonnegative. -/
theorem temporalDistance_nonneg (a b : Event) : 0 ≤ temporalDistance a b :=
  abs_nonneg _

/-- Events at identical coordinates are at spatial distance 0. -/
theorem spatialDistance_eq_coords (a b : Event)
    (hlat : a.latitude = b.latitude) (hlon : a.longitude = b.longitude) :
    spatialDistance a b = 0 := by
  unfold spatialDistance
  rw [hlat, hlon]
  simp

/-- At spatial and temporal distance 0 the space-like interval is the real 0. -/
theorem spacelikeInterval_zero (a b : Event)
    (hr : spatialDistance a b = 0) (ht : temporalDistance a b = 0) :
    spacelikeInterval a b = ((0:ℝ) : EReal) := by
  rw [spacelikeInterval_eq, hr, ht]
  norm_num

/-- Events used as interval witnesses: two authors, same place, same time. -/
def eventA : Event := ⟨"Alice", "http://a.example", 0, 1, 2⟩

/-- Same coordinates and timestamp as `eventA`, different author. -/
def eventB : Event := ⟨"Bob", "http://b.example", 0, 1, 2⟩

/-! ## C1: finiteness of the space-like interval -/

/-- C1: `spacelikeInterval(a,b)` is finite iff
`temporalDistance(a,b) <= spatialDistance(a,b)`; beyond that bound it
returns positive infinity instead of raising, and within it the value is
`sqrt(spatialDistance^2 - temporalDistance^2)`. -/
theorem spacelikeInterval_finite_iff (a b : Event) :
    (spacelikeInterval a b ≠ ⊤ ↔ (temporalDistance a b : ℝ) ≤ spatialDistance a b) ∧
    (spatialDistance a b < (temporalDistance a b : ℝ) → spacelikeInterval a b = ⊤) ∧
    ((temporalDistance a b : ℝ) ≤ spatialDistance a b →
      spacelikeInterval a b =
        ((Real.sqrt (spatialDistance a b ^ 2 - (temporalDistance a b : ℝ) ^ 2) : ℝ) : EReal)) := by
  have hr : (0:ℝ) ≤ spatialDistance a b := spatialDistance_nonneg a b
  have ht : (0:ℝ) ≤ (temporalDistance a b : ℝ) := by
    exact_mod_cast temporalDistance_nonneg a b
  have hkey : spatialDistance a b ^ 2 - 1 * (temporalDistance a b : ℝ) ^ 2 < 0 ↔
      spatialDistance a b < (temporalDistance a b : ℝ) := by
    rw [one_mul, sub_neg]
    exact pow_lt_pow_iff_left₀ hr ht (by norm_num)
  refine ⟨?_, fun hlt => ?_, fun hle => ?_⟩
  · rw [spacelikeInterval_eq]
    by_cases h : spatialDistance a b ^ 2 - 1 * (temporalDistance a b : ℝ) ^ 2 < 0
    · rw [if_pos h]
      simp only [ne_eq, not_true_eq_false, false_iff, not_le]
      exact hkey.1 h
    · rw [if_neg h]
      simp only [ne_eq, EReal.coe_ne_top, not_false_eq_true, true_iff]
      exact le_of_not_lt (fun hlt => h (hkey.2 hlt))
  · rw [spacelikeInterval_eq, if_pos (hkey.2 hlt)]
  · rw [spacelikeInterval_eq, if_neg (fun h => absurd (hkey.1 h) (not_lt_of_le hle))]
    rw [one_mul]

/-- C1 witness: for the co-located simultaneous `eventA`, `eventB` the
interval is finite. -/
theorem spacelikeInterval_finite_iff_witness :
    spacelikeInterval eventA eventB =
      ((Real.sqrt (spatialDistance eventA eventB ^ 2 -
        (temporalDistance eventA eventB : ℝ) ^ 2) : ℝ) : EReal) ∧
    spacelikeInterval eventA eventB ≠ ⊤ := by
  have hr : spatialDistance eventA eventB = 0 := spatialDistance_eq_coords eventA eventB rfl rfl
  have ht : (temporalDistance eventA eventB : ℝ) ≤ spatialDistance eventA eventB := by
    rw [hr]
    have : temporalDistance eventA eventB = 0 := by decide
    rw [this]
    norm_num
  exact ⟨(spacelikeInterval_finite_iff eventA eventB).2.2 ht,
    (spacelikeInterval_finite_iff eventA eventB).1.mpr ht⟩

/-! ## C10: the finite interval under-estimates the spatial distance -/

/-- C10 (amended): whenever `spacelikeInterval(a,b)` is finite it is at
most `spatialDistance(a,b)`, and a pair whose spatial distance is at most
`t` is merge-eligible at threshold `t`; a merged pair may however lie
spatially farther than the threshold. -/
theorem spacelikeInterval_le_spatial (a b : Event)
    (hfin : spacelikeInterval a b ≠ ⊤) :
    spacelikeInterval a b ≤ ((spatialDistance a b : ℝ) : EReal) ∧
    ∀ t : ℝ, spatialDistance a b ≤ t → spacelikeInterval a b ≤ ((t : ℝ) : EReal) := by
  have hr : (0:ℝ) ≤ spatialDistance a b := spatialDistance_nonneg a b
  rw [spacelikeInterval_eq] at hfin ⊢
  by_cases h : spatialDistance a b ^ 2 - 1 * (temporalDistance a b : ℝ) ^ 2 < 0
  · rw [if_pos h] at hfin
    exact absurd rfl hfin
  · rw [if_neg h]
    have hle : Real.sqrt (spatialDistance a b ^ 2 - 1 * (temporalDistance a b : ℝ) ^ 2) ≤
        spatialDistance a b := by
      have h1 : spatialDistance a b ^ 2 - 1 * (temporalDistance a b : ℝ) ^ 2 ≤
          spatialDistance a b ^ 2 := by
        have := sq_nonneg ((temporalDistance a b : ℝ))
        linarith
      calc Real.sqrt (spatialDistance a b ^ 2 - 1 * (temporalDistance a b : ℝ) ^ 2)
          ≤ Real.sqrt (spatialDistance a b ^ 2) := Real.sqrt_le_sqrt h1
        _ = spatialDistance a b := Real.sqrt_sq hr
    constructor
    · exact EReal.coe_le_coe_iff.2 hle
    · intro t hts
      exact EReal.coe_le_coe_iff.2 (le_trans hle hts)

/-- C10 witness: the co-located simultaneous pair has a finite interval
bounded by its spatial distance. -/
theorem spacelikeInterval_le_spatial_witness :
    spacelikeInterval eventA eventB ≤ ((spatialDistance eventA eventB : ℝ) : EReal) := by
  have hr : spatialDistance eventA eventB = 0 := spatialDistance_eq_coords eventA eventB rfl rfl
  have ht : temporalDistance eventA eventB = 0 := by decide
  have hfin : spacelikeInterval eventA eventB ≠ ⊤ := by
    rw [spacelikeInterval_zero eventA eventB hr ht]
    exact EReal.coe_ne_top 0
  exact (spacelikeInterval_le_spatial eventA eventB hfin).1

/-! ## Pole events and their distances -/

/-- An event at the north pole, longitude 0, time 0. -/
def poleNorth : Event := ⟨"N", "http://n", 0, 90, 0⟩

/-- An event at the south pole, longitude 0, 20000000 seconds later. -/
def poleSouth : Event := ⟨"S", "http://s", 20000000, -90, 0⟩

/-- An event at the north pole with a different longitude. -/
def poleNorth2 : Event := ⟨"N2", "http://n2", 0, 90, 100⟩

theorem toRadians_90 : toRadians (90:ℚ) = Real.pi / 2 := by
  unfold toRadians
  push_cast
  ring

theorem toRadians_neg90 : toRadians (-90:ℚ) = -(Real.pi / 2) := by
  unfold toRadians
  push_cast
  ring

theorem toRadians_0 : toRadians (0:ℚ) = 0 := by
  unfold toRadians
  push_cast
  ring

/-- Antipodal points: the north and south pole are half a great circle apart. -/
theorem spatialDistance_poles :
    spatialDistance poleNorth poleSouth = 6371000 * Real.pi := by
  simp only [spatialDistance, poleNorth, poleSouth]
  rw [toRadians_90, toRadians_neg90, toRadians_0]
  have e1 : (-(Real.pi / 2) - Real.pi / 2) / 2 = -(Real.pi / 2) := by ring
  rw [e1, Real.sin_neg, Real.sin_pi_div_two, Real.cos_pi_div_two]
  have e2 : ((0:ℝ) - 0) / 2 = 0 := by ring
  rw [e2, Real.sin_zero]
  have e3 : ((-1:ℝ)) ^ 2 + 0 * Real.cos (-(Real.pi / 2)) * (0:ℝ) ^ 2 = 1 := by ring
  rw [e3, Real.sqrt_one, Real.arcsin_one]
  unfold earthRadius
  ring

/-- Two distinct coordinate pairs at the north pole are at distance 0. -/
theorem spatialDistance_pole_lons :
    spatialDistance poleNorth poleNorth2 = 0 := by
  simp only [spatialDistance, poleNorth, poleNorth2]
  rw [toRadians_90, Real.cos_pi_div_two]
  have e1 : (Real.pi / 2 - Real.pi / 2) / 2 = 0 := by ring
  rw [e1, Real.sin_zero]
  have e2 : (0:ℝ) ^ 2 + 0 * 0 * Real.sin ((toRadians 100 - toRadians 0) / 2) ^ 2 = 0 := by
    ring
  rw [e2, Real.sqrt_zero, Real.arcsin_zero]
  ring

/-! ## C8: symmetry and the zero locus of the spatial distance -/

/-- C8 (amended): the spatial distance is symmetric and vanishes on
identical coordinate pairs; the converse of the zero condition fails
(see the pole counterexample). -/
theorem spatialDistance_symm_zero (a b : Event) :
    spatialDistance a b = spatialDistance b a ∧
    (a.latitude = b.latitude → a.longitude = b.longitude → spatialDistance a b = 0) := by
  constructor
  · simp only [spatialDistance]
    have hs : ∀ x y : ℝ, Real.sin ((x - y) / 2) ^ 2 = Real.sin ((y - x) / 2) ^ 2 := by
      intro x y
      have hx : (x - y) / 2 = -((y - x) / 2) := by ring
      rw [hx, Real.sin_neg]
      ring
    rw [hs (toRadians b.latitude) (toRadians a.latitude),
        hs (toRadians b.longitude) (toRadians a.longitude),
        mul_comm (Real.cos (toRadians a.latitude)) (Real.cos (toRadians b.latitude))]
  · exact spatialDistance_eq_coords a b

/-- C8 witness: identical coordinates give spatial distance 0. -/
theorem spatialDistance_symm_zero_witness : spatialDistance eventA eventB = 0 :=
  (spatialDistance_symm_zero eventA eventB).2 rfl rfl

/-- C8 counterexample: `spatialDistance` is 0 on two events whose
coordinate pairs differ (both at the north pole, longitudes 0 and 100),
refuting the claimed "zero iff identical coordinates". -/
theorem spatialDistance_zero_distinct_coords :
    spatialDistance poleNorth poleNorth2 = 0 ∧
    ¬(poleNorth.latitude = poleNorth2.latitude ∧
      poleNorth.longitude = poleNorth2.longitude) :=
  ⟨spatialDistance_pole_lons, by decide⟩

/-! ## C10 counterexample -/

/-- C10 counterexample: the pole pair has a finite interval below the
threshold 1000000 (so it is merged there), yet its spatial distance
exceeds 1000000 meters — a pair merged at a finite threshold `t` need not
be within `t` meters spatially. -/
theorem spacelikeInterval_merged_far_apart :
    spacelikeInterval poleNorth poleSouth ≠ ⊤ ∧
    spacelikeInterval poleNorth poleSouth ≤ (((1000000:ℝ)) : EReal) ∧
    ¬ spatialDistance poleNorth poleSouth ≤ (1000000:ℝ) := by
  have hsd : spatialDistance poleNorth poleSouth = 6371000 * Real.pi :=
    spatialDistance_poles
  have htd : ((temporalDistance poleNorth poleSouth : ℤ) : ℝ) = 20000000 := by
    norm_num [temporalDistance, poleNorth, poleSouth]
  have hnot : ¬ (spatialDistance poleNorth poleSouth ^ 2 -
      1 * ((temporalDistance poleNorth poleSouth : ℤ) : ℝ) ^ 2 < 0) := by
    rw [hsd, htd]
    have hpi := Real.pi_gt_d6
    nlinarith [hpi, Real.pi_pos]
  refine ⟨?_, ?_, ?_⟩
  · rw [spacelikeInterval_eq, if_neg hnot]
    exact EReal.coe_ne_top _
  · rw [spacelikeInterval_eq, if_neg hnot, hsd, htd]
    have hsqrt : Real.sqrt ((6371000 * Real.pi) ^ 2 - 1 * (20000000:ℝ) ^ 2) ≤ 1000000 := by
      rw [Real.sqrt_le_iff]
      constructor
      · norm_num
      · have hpi := Real.pi_lt_d6
        nlinarith [hpi, Real.pi_pos]
    exact EReal.coe_le_coe_iff.2 hsqrt
  · rw [hsd]
    intro hle
    have hpi := Real.pi_gt_three
    nlinarith [hpi]

/-! ## C4: the dedup key concatenation -/

theorem hasSep_tail (c : Char) (l : List Char) (h : hasSep (c :: l) = false) :
    hasSep l = false := by
  cases l with
  | nil => rfl
  | cons d m =>
      simp only [hasSep] at h
      split_ifs at h
      exact h

theorem hasSep_head (m : List Char) : hasSep (' ' :: '<' :: m) = true := by
  simp [hasSep]

/-- Injectivity of `name ++ " <" ++ uri ++ ">"` on character lists, under
the proviso that neither name contains the separator `" <"`. -/
theorem keyChars_inj (n1 : List Char) : ∀ (n2 u1 u2 : List Char),
    hasSep n1 = false → hasSep n2 = false →
    n1 ++ ' ' :: '<' :: (u1 ++ ['>']) = n2 ++ ' ' :: '<' :: (u2 ++ ['>']) →
    n1 = n2 ∧ u1 = u2 := by
  induction n1 with
  | nil =>
      intro n2 u1 u2 h1 h2 h
      cases n2 with
      | nil =>
          simp only [List.nil_append] at h
          injection h with _ h
          injection h with _ h
          exact ⟨rfl, List.append_cancel_right h⟩
      | cons c m =>
          simp only [List.nil_append, List.cons_append] at h
          injection h with hc h
          cases m with
          | nil =>
              simp only [List.nil_append] at h
              injection h with hd _
              exact absurd hd (by decide)
          | cons d m2 =>
              simp only [List.cons_append] at h
              injection h with hd h
              rw [← hc, ← hd] at h2
              rw [hasSep_head] at h2
              simp at h2
  | cons a t ih =>
      intro n2 u1 u2 h1 h2 h
      cases n2 with
      | nil =>
          simp only [List.cons_append, List.nil_append] at h
          injection h with ha h
          cases t with
          | nil =>
              simp only [List.nil_append] at h
              injection h with hd _
              exact absurd hd (by decide)
          | cons b t2 =>
              simp only [List.cons_append] at h
              injection h with hb h
              rw [ha, hb] at h1
              rw [hasSep_head] at h1
              simp at h1
      | cons b m =>
          simp only [List.cons_append] at h
          injection h with hab h
          obtain ⟨hn, hu⟩ := ih m u1 u2 (hasSep_tail a t h1) (hasSep_tail b m h2) h
          exact ⟨by rw [hab, hn], hu⟩

/-- A name containing the separator: collides with another author pair. -/
def ambigA : Event := ⟨"a", "b <c", 0, 0, 0⟩

/-- The colliding author pair. -/
def ambigB : Event := ⟨"a <b", "c", 0, 0, 0⟩

/-- C4 counterexample: two distinct `(name, uri)` pairs map to the same
dedup key `"a <b <c>"`, so the key function is not injective. -/
theorem dedupKey_not_injective :
    dedupKey ambigA = dedupKey ambigB ∧
    ¬(ambigA.name = ambigB.name ∧ ambigA.uri = ambigB.uri) := by
  constructor
  · decide
  · decide

/-- C4 (amended): when neither name contains the separator substring
`" <"`, the dedup keys agree exactly when the `(name, uri)` pairs do;
equal pairs always give equal keys. -/
theorem dedupKey_sep_free_inj (e1 e2 : Event)
    (h1 : hasSep e1.name.data = false) (h2 : hasSep e2.name.data = false) :
    dedupKey e1 = dedupKey e2 ↔ e1.name = e2.name ∧ e1.uri = e2.uri := by
  constructor
  · intro h
    have hd : (dedupKey e1).data = (dedupKey e2).data := by rw [h]
    unfold dedupKey at hd
    simp only [String.data_append] at hd
    have hform : ∀ (n u : List Char),
        n ++ [' ', '<'] ++ u ++ ['>'] = n ++ ' ' :: '<' :: (u ++ ['>']) := by
      intro n u
      simp [List.append_assoc]
    rw [hform, hform] at hd
    obtain ⟨hn, hu⟩ :=
      keyChars_inj e1.name.data e2.name.data e1.uri.data e2.uri.data h1 h2 hd
    exact ⟨String.ext hn, String.ext hu⟩
  · rintro ⟨hn, hu⟩
    unfold dedupKey
    rw [hn, hu]

/-- A separator-free author. -/
def authorC : Event := ⟨"ann", "http://ann", 5, 0, 0⟩

/-- Another separator-free author. -/
def authorD : Event := ⟨"bob", "http://bob", 6, 0, 0⟩

/-- C4 witness: for two separator-free names the keys agree iff the
author pairs do. -/
theorem dedupKey_sep_free_inj_witness :
    dedupKey authorC = dedupKey authorD ↔
      authorC.name = authorD.name ∧ authorC.uri = authorD.uri :=
  dedupKey_sep_free_inj authorC authorD (by decide) (by decide)

/-! ## C5: the printed time span -/

/-- First party guest (timestamp 0). -/
def guest1 : Event := ⟨"G1", "http://g1", 0, 1, 1⟩

/-- Second party guest (timestamp 100). -/
def guest2 : Event := ⟨"G2", "http://g2", 100, 1, 1⟩

/-- Third party guest (timestamp 200). -/
def guest3 : Event := ⟨"G3", "http://g3", 200, 1, 1⟩

/-- C5: evaluating `partyPrint` on a qualifying 3-member cluster with
timestamps 0, 100, 200.  The members are printed sorted ascending, but
the printed span ends at `timestamps[1]` — the second-earliest timestamp
100 — not at the latest member timestamp 200 as the spec states. -/
theorem partyPrint_span_bug :
    (partyPrint [guest1, guest2, guest3]).names = ["G1", "G2", "G3"] ∧
    (partyPrint [guest1, guest2, guest3]).spanStart = some 0 ∧
    (partyPrint [guest1, guest2, guest3]).spanEnd = some 100 ∧
    ([guest1, guest2, guest3].map (fun e => e.datetime)).maximum = some 200 ∧
    2 < ([guest1, guest2, guest3] : List Event).length := by
  decide
